import Mathlib

/-!
Shallow embedding of the hesim utility fragment: the row-wise matrix
reductions exported in `src/utils.cpp` (`C_rowmax`, `C_rowmax_index`,
which delegate to Armadillo's `max(x, 1)` and `index_max(x, 1)`), and the
header utilities of `inst/include/hesim/utils.h` (`list_to_vec`,
`max_element_pos`, `unique`).

Matrices are modelled as lists of rows with rational entries; rectangular
shape is stated as a hypothesis where a claim needs it.
-/

namespace hesim

/-- A matrix, modelled as the list of its rows. -/
abbrev Mat := List (List ℚ)

/-- Maximum entry of a row: Armadillo reduces a non-empty range by
scanning it and keeping the running maximum.  Modelled here as a left
fold of `max` over the tail starting from the head; the value on an
empty row is an arbitrary default (Armadillo raises an error there,
which this model does not need to distinguish). -/
def vecMax : List ℚ → ℚ
  | [] => 0
  | x :: xs => xs.foldl max x

/-- One left-to-right scan keeping the position of the running maximum,
updating only on a strictly larger element: `best` is the running
maximum, found at position `bestPos`, and `pos` is the position of the
head of the remaining list.  This is the loop shared by
`std::max_element` and Armadillo's `index_max`. -/
def maxScan (best : ℚ) (bestPos pos : ℕ) : List ℚ → ℕ
  | [] => bestPos
  | y :: ys => if best < y then maxScan y pos (pos + 1) ys
               else maxScan best bestPos (pos + 1) ys

/-- Embedding of `hesim::max_element_pos` (utils.h): the distance from
`first` to `std::max_element(first, last)`.  `std::max_element` returns
`last` on an empty range, so the distance is `0` there; otherwise it
returns the first position holding the largest element. -/
def max_element_pos (l : List ℚ) : ℕ :=
  match l with
  | [] => 0
  | x :: xs => maxScan x 0 1 xs

/-- Armadillo's `arma::max(x, 1)`: the column vector of row maxima. -/
def arma_max (x : Mat) : List ℚ :=
  x.map vecMax

/-- Armadillo's `arma::index_max` applied to one row: the column index
of the row's maximum, the first such column when several columns tie. -/
def arma_index_max_row (r : List ℚ) : ℕ :=
  match r with
  | [] => 0
  | x :: xs => maxScan x 0 1 xs

/-- Armadillo's `arma::index_max(x, 1)`: the column vector of row
argmax indices. -/
def arma_index_max (x : Mat) : List ℕ :=
  x.map arma_index_max_row

/-- Embedding of `C_rowmax` (src/utils.cpp): `return arma::max(x, 1);`. -/
def C_rowmax (x : Mat) : List ℚ :=
  arma_max x

/-- Embedding of `C_rowmax_index` (src/utils.cpp):
`return arma::index_max(x, 1);`. -/
def C_rowmax_index (x : Mat) : List ℕ :=
  arma_index_max x

/-- A host-language (R) value as seen at the conversion boundary: a
numeric matrix, a character string, or a generic list of further
values.  This is the fragment of the SEXP universe the converter
distinguishes. -/
inductive RObj where
  | rmat : Mat → RObj
  | rstr : String → RObj
  | rlist : List RObj → RObj

/-- The element conversion `Rcpp::as<arma::mat>`: succeeds exactly on a
numeric matrix and throws a type error (`Rcpp::not_compatible`) on
anything else. -/
def as_mat : RObj → Except String Mat
  | .rmat m => .ok m
  | _ => .error "not compatible with requested type"

/-- Embedding of `hesim::detail::list_to_vec` (utils.h): walk the list
in order, converting each element with `conv` and appending the result;
a conversion failure propagates as the thrown exception and no vector
is returned. -/
def list_to_vec (conv : RObj → Except String α) : List RObj → Except String (List α)
  | [] => .ok []
  | x :: xs =>
    match conv x with
    | .error e => .error e
    | .ok v =>
      match list_to_vec conv xs with
      | .error e => .error e
      | .ok rest => .ok (v :: rest)

/-- The tail loop of `std::unique`: `prev` is the last element kept in
the output; an element equal to it is dropped, a different one is kept
and becomes the new `prev`. -/
def dedupFrom (prev : ℚ) : List ℚ → List ℚ
  | [] => []
  | y :: ys => if y = prev then dedupFrom prev ys else y :: dedupFrom y ys

/-- `std::unique` on a whole vector: keep the first element of every
run of equal consecutive elements. -/
def dedupAdjacent : List ℚ → List ℚ
  | [] => []
  | x :: xs => x :: dedupFrom x xs

/-- Embedding of `hesim::unique` (utils.h): `std::sort` the vector,
then erase the tail left by `std::unique`, i.e. drop consecutive
duplicates of the sorted vector. -/
def unique (v : List ℚ) : List ℚ :=
  dedupAdjacent (List.insertionSort (fun a b => a ≤ b) v)

/-! Helper lemmas about list indexing. -/

/-- An in-bounds `getD` read is a member of the list. -/
lemma getD_mem {α : Type _} (l : List α) (d : α) {k : ℕ} (h : k < l.length) :
    l.getD k d ∈ l := by
  rw [List.getD_eq_getElem l d h]
  exact List.getElem_mem h

/-- Every member of a list is an in-bounds `getD` read. -/
lemma mem_getD {α : Type _} {l : List α} {a : α} (d : α) (h : a ∈ l) :
    ∃ k, k < l.length ∧ l.getD k d = a := by
  rcases List.mem_iff_getElem.mp h with ⟨i, hi, hval⟩
  exact ⟨i, hi, by rw [List.getD_eq_getElem l d hi, hval]⟩

/-! Facts about the running maximum of a row. -/

/-- A left fold of `max` yields either its seed or a list element. -/
lemma foldl_max_mem : ∀ (xs : List ℚ) (x : ℚ), xs.foldl max x ∈ x :: xs := by
  intro xs
  induction xs with
  | nil => intro x; simp
  | cons y ys ih =>
    intro x
    rw [List.foldl_cons]
    rcases List.mem_cons.mp (ih (max x y)) with h1 | h1
    · rcases max_choice x y with hc | hc
      · rw [h1, hc]; exact List.mem_cons_self _ _
      · rw [h1, hc]; exact List.mem_cons.mpr (Or.inr (List.mem_cons_self _ _))
    · exact List.mem_cons.mpr (Or.inr (List.mem_cons.mpr (Or.inr h1)))

/-- The seed is below a left fold of `max`. -/
lemma le_foldl_max_init : ∀ (xs : List ℚ) (x : ℚ), x ≤ xs.foldl max x := by
  intro xs
  induction xs with
  | nil => intro x; simp
  | cons y ys ih =>
    intro x
    rw [List.foldl_cons]
    exact le_trans (le_max_left x y) (ih (max x y))

/-- Every list element is below a left fold of `max` over the list. -/
lemma le_foldl_max_of_mem : ∀ (xs : List ℚ) (x a : ℚ), a ∈ xs → a ≤ xs.foldl max x := by
  intro xs
  induction xs with
  | nil => intro x a ha; cases ha
  | cons y ys ih =>
    intro x a ha
    rw [List.foldl_cons]
    rcases List.mem_cons.mp ha with h1 | h1
    · subst h1; exact le_trans (le_max_right x a) (le_foldl_max_init ys (max x a))
    · exact ih (max x y) a h1

/-- The row maximum is an element of a non-empty row. -/
lemma vecMax_mem {r : List ℚ} (h : 0 < r.length) : vecMax r ∈ r := by
  cases r with
  | nil => simp at h
  | cons x xs => exact foldl_max_mem xs x

/-- The row maximum bounds every element of the row. -/
lemma le_vecMax {r : List ℚ} {a : ℚ} (h : a ∈ r) : a ≤ vecMax r := by
  cases r with
  | nil => cases h
  | cons x xs =>
    rcases List.mem_cons.mp h with h1 | h1
    · exact h1 ▸ le_foldl_max_init xs x
    · exact le_foldl_max_of_mem xs x a h1

/-- Any element bounding the whole row is the row maximum. -/
lemma vecMax_eq_of {r : List ℚ} {v : ℚ} (hv : v ∈ r) (hmax : ∀ a ∈ r, a ≤ v) :
    vecMax r = v := by
  have hlen : 0 < r.length := List.length_pos.mpr (List.ne_nil_of_mem hv)
  exact le_antisymm (hmax _ (vecMax_mem hlen)) (le_vecMax hv)

/-! Characterisation of the strictly-greater scan loop. -/

/-- Starting from a running maximum `best` recorded at position
`bestPos`, with the remaining list occupying positions `pos, pos+1, …`,
the scan returns either `bestPos` (when no element beats `best`) or the
position of the first list element that is strictly above `best`, at
least every other element, and strictly above every earlier element. -/
lemma maxScan_spec : ∀ (l : List ℚ) (best : ℚ) (bp p : ℕ),
    (maxScan best bp p l = bp ∧ ∀ y ∈ l, y ≤ best) ∨
    (∃ j, j < l.length ∧ maxScan best bp p l = p + j ∧ best < l.getD j 0 ∧
      (∀ k, k < l.length → l.getD k 0 ≤ l.getD j 0) ∧
      (∀ k, k < j → l.getD k 0 < l.getD j 0)) := by
  intro l
  induction l with
  | nil =>
    intro best bp p
    left
    exact ⟨rfl, by simp⟩
  | cons y ys ih =>
    intro best bp p
    by_cases h : best < y
    · have hstep : maxScan best bp p (y :: ys) = maxScan y p (p + 1) ys := by
        simp [maxScan, h]
      rcases ih y p (p + 1) with ⟨heq, hall⟩ | ⟨j, hj, heq, hgt, hle, hfirst⟩
      · right
        refine ⟨0, by simp, ?_, by simpa using h, ?_, ?_⟩
        · rw [hstep, heq]; omega
        · intro k hk
          cases k with
          | zero => simp
          | succ k =>
            rw [List.getD_cons_succ, List.getD_cons_zero]
            exact hall _ (getD_mem ys 0 (by simp at hk; omega))
        · intro k hk; omega
      · right
        refine ⟨j + 1, by simpa using Nat.succ_lt_succ hj, ?_, ?_, ?_, ?_⟩
        · rw [hstep, heq]; omega
        · rw [List.getD_cons_succ]; exact lt_trans h hgt
        · intro k hk
          cases k with
          | zero =>
            rw [List.getD_cons_zero, List.getD_cons_succ]
            exact le_of_lt hgt
          | succ k =>
            rw [List.getD_cons_succ, List.getD_cons_succ]
            exact hle k (by simp at hk; omega)
        · intro k hk
          cases k with
          | zero =>
            rw [List.getD_cons_zero, List.getD_cons_succ]
            exact hgt
          | succ k =>
            rw [List.getD_cons_succ, List.getD_cons_succ]
            exact hfirst k (by omega)
    · have hyb : y ≤ best := not_lt.mp h
      have hstep : maxScan best bp p (y :: ys) = maxScan best bp (p + 1) ys := by
        simp [maxScan, h]
      rcases ih best bp (p + 1) with ⟨heq, hall⟩ | ⟨j, hj, heq, hgt, hle, hfirst⟩
      · left
        refine ⟨by rw [hstep, heq], ?_⟩
        intro z hz
        rcases List.mem_cons.mp hz with h1 | h1
        · exact h1 ▸ hyb
        · exact hall z h1
      · right
        refine ⟨j + 1, by simpa using Nat.succ_lt_succ hj, ?_, ?_, ?_, ?_⟩
        · rw [hstep, heq]; omega
        · rw [List.getD_cons_succ]; exact hgt
        · intro k hk
          cases k with
          | zero =>
            rw [List.getD_cons_zero, List.getD_cons_succ]
            exact le_of_lt (lt_of_le_of_lt hyb hgt)
          | succ k =>
            rw [List.getD_cons_succ, List.getD_cons_succ]
            exact hle k (by simp at hk; omega)
        · intro k hk
          cases k with
          | zero =>
            rw [List.getD_cons_zero, List.getD_cons_succ]
            exact lt_of_le_of_lt hyb hgt
          | succ k =>
            rw [List.getD_cons_succ, List.getD_cons_succ]
            exact hfirst k (by omega)

/-- The scan started on a non-empty row stays in bounds, attains the
row maximum, and every position before it holds a strictly smaller
element. -/
lemma scan_cons_spec (x : ℚ) (xs : List ℚ) :
    maxScan x 0 1 xs < xs.length + 1 ∧
    (∀ k, k < xs.length + 1 →
      (x :: xs).getD k 0 ≤ (x :: xs).getD (maxScan x 0 1 xs) 0) ∧
    (∀ k, k < maxScan x 0 1 xs →
      (x :: xs).getD k 0 < (x :: xs).getD (maxScan x 0 1 xs) 0) := by
  rcases maxScan_spec xs x 0 1 with ⟨heq, hall⟩ | ⟨j, hj, heq, hgt, hle, hfirst⟩
  · rw [heq]
    refine ⟨by omega, ?_, ?_⟩
    · intro k hk
      cases k with
      | zero => simp
      | succ k =>
        rw [List.getD_cons_succ, List.getD_cons_zero]
        exact hall _ (getD_mem xs 0 (by omega))
    · intro k hk; omega
  · have heq' : maxScan x 0 1 xs = j + 1 := by rw [heq]; omega
    rw [heq']
    refine ⟨by omega, ?_, ?_⟩
    · intro k hk
      cases k with
      | zero =>
        rw [List.getD_cons_zero, List.getD_cons_succ]
        exact le_of_lt hgt
      | succ k =>
        rw [List.getD_cons_succ, List.getD_cons_succ]
        exact hle k (by omega)
    · intro k hk
      cases k with
      | zero =>
        rw [List.getD_cons_zero, List.getD_cons_succ]
        exact hgt
      | succ k =>
        rw [List.getD_cons_succ, List.getD_cons_succ]
        exact hfirst k (by omega)

/-- On a non-empty row, Armadillo's argmax index is in bounds, attains
the maximum, and is the first position to do so. -/
lemma arma_index_max_row_spec (r : List ℚ) (h : 0 < r.length) :
    arma_index_max_row r < r.length ∧
    (∀ k, k < r.length → r.getD k 0 ≤ r.getD (arma_index_max_row r) 0) ∧
    (∀ k, k < arma_index_max_row r →
      r.getD k 0 < r.getD (arma_index_max_row r) 0) := by
  cases r with
  | nil => simp at h
  | cons x xs => simpa [arma_index_max_row] using scan_cons_spec x xs

/-- On a non-empty range, `max_element_pos` is in bounds, attains the
maximum, and is the first position to do so. -/
lemma max_element_pos_cons_spec (r : List ℚ) (h : 0 < r.length) :
    max_element_pos r < r.length ∧
    (∀ k, k < r.length → r.getD k 0 ≤ r.getD (max_element_pos r) 0) ∧
    (∀ k, k < max_element_pos r →
      r.getD k 0 < r.getD (max_element_pos r) 0) := by
  cases r with
  | nil => simp at h
  | cons x xs => simpa [max_element_pos] using scan_cons_spec x xs

/-- The element at Armadillo's argmax index is the row maximum. -/
lemma getD_arma_index_max_row (r : List ℚ) (h : 0 < r.length) :
    r.getD (arma_index_max_row r) 0 = vecMax r := by
  rcases arma_index_max_row_spec r h with ⟨hb, hle, _⟩
  refine (vecMax_eq_of (getD_mem r 0 hb) ?_).symm
  intro a ha
  rcases mem_getD 0 ha with ⟨k, hk, hval⟩
  exact hval ▸ hle k hk

/-- Reading the row-maximum vector at an in-bounds row index gives the
maximum of that row. -/
lemma C_rowmax_getD (m : Mat) {i : ℕ} (hi : i < m.length) :
    (C_rowmax m).getD i 0 = vecMax (m.getD i []) := by
  have hi' : i < (List.map vecMax m).length := by simpa using hi
  show (List.map vecMax m).getD i 0 = _
  rw [List.getD_eq_getElem _ _ hi', List.getElem_map, List.getD_eq_getElem _ _ hi]

/-- Reading the argmax vector at an in-bounds row index gives the
argmax of that row. -/
lemma C_rowmax_index_getD (m : Mat) {i : ℕ} (hi : i < m.length) :
    (C_rowmax_index m).getD i 0 = arma_index_max_row (m.getD i []) := by
  have hi' : i < (List.map arma_index_max_row m).length := by simpa using hi
  show (List.map arma_index_max_row m).getD i 0 = _
  rw [List.getD_eq_getElem _ _ hi', List.getElem_map, List.getD_eq_getElem _ _ hi]

/-! Claim theorems about the row reductions. -/

/-- C1: for every matrix with R rows and C > 0 columns, `C_rowmax`
returns a vector of length R whose i-th entry is the maximum of the C
elements of row i: it is an element of row i and bounds every element
of row i. -/
theorem C_rowmax_correct (m : Mat) (C : ℕ) (hC : 0 < C)
    (hrect : ∀ r ∈ m, r.length = C) :
    (C_rowmax m).length = m.length ∧
    ∀ i, i < m.length →
      (C_rowmax m).getD i 0 ∈ m.getD i [] ∧
      ∀ a ∈ m.getD i [], a ≤ (C_rowmax m).getD i 0 := by
  constructor
  · exact List.length_map m vecMax
  · intro i hi
    have hrow : m.getD i [] ∈ m := getD_mem m [] hi
    have hlen : 0 < (m.getD i []).length := by rw [hrect _ hrow]; exact hC
    rw [C_rowmax_getD m hi]
    exact ⟨vecMax_mem hlen, fun a ha => le_vecMax ha⟩

/-- Witness for C1 at the matrix [[1,5,3],[9,2,2]] with C = 3. -/
theorem C_rowmax_correct_witness :
    (C_rowmax [[1, 5, 3], [9, 2, 2]]).length = 2 ∧
    (C_rowmax [[1, 5, 3], [9, 2, 2]]).getD 0 0 ∈ ([1, 5, 3] : List ℚ) := by
  have h := C_rowmax_correct [[1, 5, 3], [9, 2, 2]] 3 (by decide) (by decide)
  exact ⟨by simpa using h.1, (h.2 0 (by decide)).1⟩

/-- C2: `C_rowmax_index` has length R and, for every row, the matrix
entry at the returned column index equals the corresponding entry of
`C_rowmax`. -/
theorem C_rowmax_index_agrees (m : Mat) (C : ℕ) (hC : 0 < C)
    (hrect : ∀ r ∈ m, r.length = C) :
    (C_rowmax_index m).length = m.length ∧
    ∀ i, i < m.length →
      (m.getD i []).getD ((C_rowmax_index m).getD i 0) 0 =
        (C_rowmax m).getD i 0 := by
  constructor
  · exact List.length_map m arma_index_max_row
  · intro i hi
    have hrow : m.getD i [] ∈ m := getD_mem m [] hi
    have hlen : 0 < (m.getD i []).length := by rw [hrect _ hrow]; exact hC
    rw [C_rowmax_index_getD m hi, C_rowmax_getD m hi]
    exact getD_arma_index_max_row _ hlen

/-- Witness for C2 at row 1 of the matrix [[1,5,3],[9,2,2]]. -/
theorem C_rowmax_index_agrees_witness :
    ([9, 2, 2] : List ℚ).getD
        ((C_rowmax_index [[1, 5, 3], [9, 2, 2]]).getD 1 0) 0 =
      (C_rowmax [[1, 5, 3], [9, 2, 2]]).getD 1 0 := by
  have h := C_rowmax_index_agrees [[1, 5, 3], [9, 2, 2]] 3 (by decide) (by decide)
  exact h.2 1 (by decide)

/-- C5: on the concrete matrix [[1,5,3],[9,2,2]] the row maxima are
[5, 9] and the zero-based argmax indices are [1, 0]. -/
theorem rowmax_example :
    C_rowmax [[1, 5, 3], [9, 2, 2]] = [5, 9] ∧
    C_rowmax_index [[1, 5, 3], [9, 2, 2]] = [1, 0] := by
  constructor <;> decide

/-- C6: on degenerate input (zero rows, or zero columns in every row)
the exported wrappers add no validation of their own: each returns
exactly what the underlying Armadillo reduction produces on the
unchanged input. -/
theorem rowmax_degenerate_passthrough (x : Mat)
    (_h : x.length = 0 ∨ ∀ r ∈ x, r.length = 0) :
    C_rowmax x = arma_max x ∧ C_rowmax_index x = arma_index_max x :=
  ⟨rfl, rfl⟩

/-- Witness for C6 at the 2-row, 0-column matrix. -/
theorem rowmax_degenerate_passthrough_witness :
    C_rowmax [[], []] = arma_max [[], []] ∧
    C_rowmax_index [[], []] = arma_index_max [[], []] :=
  rowmax_degenerate_passthrough [[], []] (Or.inr (by decide))

/-- C8: when several columns tie for a row's maximum, the returned
index is the smallest column index attaining it: the entry there bounds
the whole row, and every in-bounds index holding the same value is at
least the returned one. -/
theorem C_rowmax_index_first_tie (m : Mat) (i : ℕ) (hi : i < m.length)
    (hrow : 0 < (m.getD i []).length) :
    (C_rowmax_index m).getD i 0 < (m.getD i []).length ∧
    (∀ k, k < (m.getD i []).length →
      (m.getD i []).getD k 0 ≤
        (m.getD i []).getD ((C_rowmax_index m).getD i 0) 0) ∧
    (∀ j, j < (m.getD i []).length →
      (m.getD i []).getD j 0 =
        (m.getD i []).getD ((C_rowmax_index m).getD i 0) 0 →
      (C_rowmax_index m).getD i 0 ≤ j) := by
  rw [C_rowmax_index_getD m hi]
  rcases arma_index_max_row_spec (m.getD i []) hrow with ⟨hb, hle, hfirst⟩
  refine ⟨hb, hle, ?_⟩
  intro j hj heq
  by_contra hlt
  push_neg at hlt
  exact absurd heq (ne_of_lt (hfirst j hlt))

/-- Witness for C8 at the single-row matrix [[2,7,7]], whose maximum is
attained at columns 1 and 2. -/
theorem C_rowmax_index_first_tie_witness :
    (C_rowmax_index [[2, 7, 7]]).getD 0 0 < 3 ∧
    ([2, 7, 7] : List ℚ).getD 0 0 ≤
      ([2, 7, 7] : List ℚ).getD ((C_rowmax_index [[2, 7, 7]]).getD 0 0) 0 := by
  have h := C_rowmax_index_first_tie [[2, 7, 7]] 0 (by decide) (by decide)
  exact ⟨h.1, h.2.1 0 (by decide)⟩

/-- C9: `max_element_pos` is total: on the empty range it returns 0
rather than failing, and on a non-empty range it returns the in-bounds
position of the first occurrence of the largest element. -/
theorem max_element_pos_total_first (l : List ℚ) :
    (l = [] → max_element_pos l = 0) ∧
    (0 < l.length →
      max_element_pos l < l.length ∧
      (∀ k, k < l.length → l.getD k 0 ≤ l.getD (max_element_pos l) 0) ∧
      (∀ k, k < max_element_pos l →
        l.getD k 0 < l.getD (max_element_pos l) 0)) := by
  constructor
  · intro h; subst h; rfl
  · intro h; exact max_element_pos_cons_spec l h

/-- Witness for C9 on the empty range and on [2,7,7,1]. -/
theorem max_element_pos_total_first_witness :
    max_element_pos [] = 0 ∧ max_element_pos [2, 7, 7, 1] < 4 := by
  refine ⟨(max_element_pos_total_first []).1 rfl, ?_⟩
  have h := ((max_element_pos_total_first [2, 7, 7, 1]).2 (by decide)).1
  simpa using h

/-! Claim theorems about the list-to-vector converter. -/

/-- C3: converting a host list of N matrices yields exactly the ordered
list of those matrices: the result has length N and its i-th element is
the conversion of the i-th list element. -/
theorem list_to_vec_ok_all (ms : List Mat) :
    list_to_vec as_mat (ms.map RObj.rmat) = Except.ok ms ∧
    (ms.map RObj.rmat).length = ms.length ∧
    ∀ i, i < ms.length →
      as_mat ((ms.map RObj.rmat).getD i (RObj.rmat [])) =
        Except.ok (ms.getD i []) := by
  refine ⟨?_, List.length_map ms RObj.rmat, ?_⟩
  · induction ms with
    | nil => rfl
    | cons m ms ih => simp [list_to_vec, as_mat, ih]
  · intro i hi
    have hi' : i < (List.map RObj.rmat ms).length := by simpa using hi
    rw [List.getD_eq_getElem _ _ hi', List.getElem_map,
      List.getD_eq_getElem _ _ hi]
    rfl

/-- C4: a host list containing an element the target conversion rejects
is converted to a propagated type error and nothing else: no coerced,
dropped or partial container is produced. -/
theorem list_to_vec_all_or_nothing (l : List RObj)
    (h : ∃ x ∈ l, ∃ e, as_mat x = Except.error e) :
    ∃ e, list_to_vec as_mat l = Except.error e := by
  induction l with
  | nil => rcases h with ⟨x, hx, _⟩; cases hx
  | cons x xs ih =>
    rcases h with ⟨z, hz, e, he⟩
    rcases List.mem_cons.mp hz with h1 | h1
    · have he' : as_mat x = Except.error e := h1 ▸ he
      exact ⟨e, by simp [list_to_vec, he']⟩
    · cases hcx : as_mat x with
      | error e2 => exact ⟨e2, by simp [list_to_vec, hcx]⟩
      | ok v =>
        rcases ih ⟨z, h1, e, he⟩ with ⟨e2, h2⟩
        exact ⟨e2, by simp [list_to_vec, hcx, h2]⟩

/-- Witness for C4: a list holding one matrix and one string fails to
convert. -/
theorem list_to_vec_all_or_nothing_witness :
    ∃ e, list_to_vec as_mat [RObj.rmat [[1]], RObj.rstr "bad"] =
      Except.error e :=
  list_to_vec_all_or_nothing _
    ⟨RObj.rstr "bad", List.Mem.tail _ (List.Mem.head _),
      "not compatible with requested type", rfl⟩

/-! Claim theorems about `unique`. -/

/-- For a sorted tail whose elements are all at least `prev`, the
deduplicated tail is a strictly increasing chain above `prev`. -/
lemma dedupFrom_chain : ∀ (l : List ℚ) (prev : ℚ),
    List.Sorted (fun a b => a ≤ b) l → (∀ b ∈ l, prev ≤ b) →
    List.Chain (fun a b => a < b) prev (dedupFrom prev l) := by
  intro l
  induction l with
  | nil => intro prev _ _; exact List.Chain.nil
  | cons y ys ih =>
    intro prev hsort hlb
    rcases List.sorted_cons.mp hsort with ⟨hy, hys⟩
    have hpy : prev ≤ y := hlb y (List.mem_cons_self y ys)
    by_cases hEq : y = prev
    · rw [dedupFrom, if_pos hEq]
      exact ih prev hys (fun b hb => hEq ▸ hy b hb)
    · have hlt : prev < y := lt_of_le_of_ne hpy (fun hc => hEq hc.symm)
      rw [dedupFrom, if_neg hEq]
      exact List.Chain.cons hlt (ih y hys hy)

/-- For a sorted tail whose elements are all at least `prev`, the
deduplicated tail holds exactly the elements strictly above `prev`. -/
lemma dedupFrom_mem : ∀ (l : List ℚ) (prev : ℚ),
    List.Sorted (fun a b => a ≤ b) l → (∀ b ∈ l, prev ≤ b) →
    ∀ a, a ∈ dedupFrom prev l ↔ (a ∈ l ∧ prev < a) := by
  intro l
  induction l with
  | nil => intro prev _ _ a; simp [dedupFrom]
  | cons y ys ih =>
    intro prev hsort hlb a
    rcases List.sorted_cons.mp hsort with ⟨hy, hys⟩
    have hpy : prev ≤ y := hlb y (List.mem_cons_self y ys)
    by_cases hEq : y = prev
    · rw [dedupFrom, if_pos hEq, ih prev hys (fun b hb => hEq ▸ hy b hb) a]
      constructor
      · rintro ⟨hmem, hlt⟩
        exact ⟨List.mem_cons.mpr (Or.inr hmem), hlt⟩
      · rintro ⟨hmem, hlt⟩
        rcases List.mem_cons.mp hmem with h1 | h1
        · subst h1
          exact absurd (hEq ▸ hlt) (lt_irrefl prev)
        · exact ⟨h1, hlt⟩
    · have hlt : prev < y := lt_of_le_of_ne hpy (fun hc => hEq hc.symm)
      rw [dedupFrom, if_neg hEq, List.mem_cons, ih y hys hy a]
      constructor
      · rintro (h1 | ⟨hmem, hgt⟩)
        · exact ⟨List.mem_cons.mpr (Or.inl h1), hlt.trans_eq h1.symm⟩
        · exact ⟨List.mem_cons.mpr (Or.inr hmem), lt_trans hlt hgt⟩
      · rintro ⟨hmem, hgt⟩
        rcases List.mem_cons.mp hmem with h1 | h1
        · exact Or.inl h1
        · rcases lt_or_eq_of_le (hy a h1) with h2 | h2
          · exact Or.inr ⟨h1, h2⟩
          · exact Or.inl h2.symm

/-- C10: after `unique`, the vector is sorted ascending, has no two
equal adjacent elements, and holds exactly the distinct elements of the
original vector. -/
theorem unique_sorted_nodup_mem (v : List ℚ) :
    List.Sorted (fun a b => a ≤ b) (unique v) ∧
    List.Chain' (fun a b => a ≠ b) (unique v) ∧
    (∀ x, x ∈ unique v ↔ x ∈ v) := by
  have hsort := List.sorted_insertionSort (fun a b => a ≤ b) v
  have hperm := List.perm_insertionSort (fun a b => a ≤ b) v
  have hu : unique v =
      dedupAdjacent (List.insertionSort (fun a b => a ≤ b) v) := rfl
  cases hcs : List.insertionSort (fun a b => a ≤ b) v with
  | nil =>
    rw [hcs] at hperm
    rw [hu, hcs]
    refine ⟨List.sorted_nil, List.chain'_nil, ?_⟩
    intro x
    simpa [dedupAdjacent] using hperm.mem_iff
  | cons x xs =>
    rw [hcs] at hsort hperm
    rcases List.sorted_cons.mp hsort with ⟨hx, hxs⟩
    have hchain : List.Chain (fun a b => a < b) x (dedupFrom x xs) :=
      dedupFrom_chain xs x hxs hx
    have hpw : List.Pairwise (fun a b => a < b) (x :: dedupFrom x xs) :=
      List.chain_iff_pairwise.mp hchain
    have hmem : ∀ a, a ∈ x :: dedupFrom x xs ↔ a ∈ x :: xs := by
      intro a
      rw [List.mem_cons, dedupFrom_mem xs x hxs hx a, List.mem_cons]
      constructor
      · rintro (h1 | ⟨h1, _⟩)
        · exact Or.inl h1
        · exact Or.inr h1
      · rintro (h1 | h1)
        · exact Or.inl h1
        · rcases lt_or_eq_of_le (hx a h1) with h2 | h2
          · exact Or.inr ⟨h1, h2⟩
          · exact Or.inl h2.symm
    rw [hu, hcs]
    have hdd : dedupAdjacent (x :: xs) = x :: dedupFrom x xs := rfl
    rw [hdd]
    refine ⟨hpw.imp (fun h => le_of_lt h), (hpw.imp (fun h => ne_of_lt h)).chain', ?_⟩
    intro a
    exact (hmem a).trans hperm.mem_iff

end hesim
